import Mathlib

/-!
Verification of the README-mirroring tool (`main.go`) against its
natural-language specification.  The Go program is shallowly embedded:
every pure decision of the program (argument handling, host validation,
the `?raw=true` stripping, the heading-anchor regex, the inline-link
regex, local/remote classification, the asset-download loop and its
`defer`-based resource handling) is translated into an executable Lean
function, and the claims of the specification are settled as theorems
about those functions.  Text is modelled as `List Char` so that the
byte-by-byte scanning loops of the Go `strings` and `regexp` packages
can be mirrored directly.  Scans whose step consumes more than one
character are written with explicit fuel (one unit per examined
position suffices) so every definition is structurally recursive and
fully evaluable by the kernel.
-/

namespace ReadTheirs

/-- Text, modelled as a list of characters (Go strings are byte
sequences; the documents here are ASCII-compatible). -/
abbrev Str := List Char

/-- Does `l` start with `p`?  Mirrors the Go test `strings.HasPrefix`. -/
def isPrefixSeq : Str → Str → Bool
  | [], _ => true
  | _ :: _, [] => false
  | a :: as, b :: bs => decide (a = b) && isPrefixSeq as bs

/-- Does `pat` occur as a contiguous substring of `l`?  Mirrors
`strings.Contains`. -/
def containsSeq (pat : Str) : Str → Bool
  | [] => decide (pat = [])
  | c :: rest => isPrefixSeq pat (c :: rest) || containsSeq pat rest

/-- The Go call `strings.Replace(s, old, new, -1)`: replace every
non-overlapping occurrence of `old` by `new`, scanning left to right.
All patterns used by the program are non-empty, so `l.length` fuel
suffices. -/
def replaceAllGo (old new : Str) : Nat → Str → Str
  | _, [] => []
  | 0, l => l
  | fuel + 1, c :: rest =>
    if isPrefixSeq old (c :: rest) then
      new ++ replaceAllGo old new fuel ((c :: rest).drop old.length)
    else
      c :: replaceAllGo old new fuel rest

def replaceAll (old new : Str) (l : Str) : Str :=
  replaceAllGo old new l.length l

/-! ## Command surface (`main`, lines 18–29)

`os.Args` includes the program name, so the Go test
`len(os.Args) != 2` admits exactly one positional argument.  The
`len(os.Args) == 3` branch that would read a branch name is
unreachable.  `none` models "print usage and exit 1";
`some (repoLink, branch)` models proceeding. -/
def parseArgs (argv : List String) : Option (String × String) :=
  if argv.length ≠ 2 then none
  else
    let repoLink := argv.getD 1 ""
    let branch := if argv.length = 3 then argv.getD 2 "master" else "master"
    some (repoLink, branch)

/-! ## Host validation (`main`, lines 31–39)

The program proceeds iff `strings.HasPrefix(u.Host, "github.com")`;
otherwise it prints a diagnostic and exits 1 before any HTTP request. -/
def validateHost (host : Str) : Bool :=
  isPrefixSeq "github.com".data host

/-! ## Document-fetch gate (`getReadme`, lines 81–99)

The GET either fails in transport or yields a status code; the run
aborts (error return, `panic` in `main`) unless the status is exactly
`http.StatusOK = 200`. -/
inductive FetchOutcome where
  | transportError : FetchOutcome
  | response (status : Nat) : FetchOutcome

/-- Whether `getReadme` proceeds past the fetch to parsing and
canonicalization. -/
def fetchGate : FetchOutcome → Bool
  | .transportError => false
  | .response c => decide (c = 200)

/-! ## Local/remote classification (`downloadAssets`, lines 144–157)

An attribute value is collected as an asset reference iff
`!strings.HasPrefix(value, "http")`. -/
def isLocal (v : Str) : Bool :=
  !isPrefixSeq "http".data v

def classifyLocals (vs : List Str) : List Str :=
  vs.filter isLocal

/-! ## Raw-content-suffix stripping (`getReadme` line 124,
`downloadAssets` line 166)

`content = strings.Replace(content, "?raw=true)", ")", -1)`. -/
def rawMarker : Str := "?raw=true".data

def rawMarkerParen : Str := "?raw=true)".data

def textStrip (l : Str) : Str :=
  replaceAll rawMarkerParen ")".data l

/-- The doubled marker `?raw=true?raw=true)`: the only shape on which
one pass of the stripping can create a fresh occurrence of
`?raw=true)`. -/
def doubledMarker : Str := "?raw=true?raw=true)".data

/-! ## Heading-anchor removal (`getReadme` lines 125–126)

`regexp.MustCompile("## <a .*></a>").ReplaceAllString(content, "## ")`.
Go regexp finds leftmost matches; `.*` is greedy and does not match a
newline, so a match starts at a literal `"## <a "` and extends to the
*last* `"></a>"` on the same line. -/
def closeTagSeq : Str := "></a>".data

def headingOpenSeq : Str := "## <a ".data

/-- Greedy position of `"></a>"`: the largest index `i` within the
current line at which the close tag starts. -/
def lastCloseIdx (line : Str) : Option Nat :=
  (List.range (line.length + 1)).reverse.find?
    (fun i => isPrefixSeq closeTagSeq (line.drop i))

/-- Given the text right after `"## <a "`, the remainder of the input
after the greedy single-line match of `.*></a>`, if any. -/
def matchAnchorTail (t : Str) : Option Str :=
  match lastCloseIdx (t.takeWhile (fun c => !(c == '\n'))) with
  | some i => some (t.drop (i + closeTagSeq.length))
  | none => none

/-- The remainder after a regex match starting exactly here, if any. -/
def anchorAt (l : Str) : Option Str :=
  if isPrefixSeq headingOpenSeq l then
    matchAnchorTail (l.drop headingOpenSeq.length)
  else none

def aRemoverGo : Nat → Str → Str
  | _, [] => []
  | 0, l => l
  | fuel + 1, c :: r =>
    match anchorAt (c :: r) with
    | some rem => '#' :: '#' :: ' ' :: aRemoverGo fuel rem
    | none => c :: aRemoverGo fuel r

def aRemover (l : Str) : Str := aRemoverGo l.length l

/-- Does the anchor-wrapper regex match anywhere in the text? -/
def hasAnchor : Str → Bool
  | [] => false
  | c :: r => (anchorAt (c :: r)).isSome || hasAnchor r

/-- Canonicalization of the raw document text before persisting
(`getReadme` lines 121–126): strip `"?raw=true)"`, then collapse
heading-anchor wrappers.  This — and only this — is what is written to
`<destination>/README.md`; the structural attribute rewriting on the
parsed document (lines 108–119) never reaches the file, which is
produced from the pre-parse raw bytes held in `contentBuffer`. -/
def canonicalize (l : Str) : Str := aRemover (textStrip l)

/-! ## The structural pass on the parsed document (`getReadme` lines 108–119)

For every `img[src], link[href], script[src]` element, any `src`/`href`
attribute value containing `"?raw=true"` is rewritten in the in-memory
document with all occurrences of the marker removed. -/
structure Element where
  tag : Str
  src : Option Str
  href : Option Str

def attrStrip (v : Str) : Str :=
  if containsSeq rawMarker v then replaceAll rawMarker [] v else v

def stripElem (el : Element) : Element :=
  { el with src := el.src.map attrStrip, href := el.href.map attrStrip }

/-! ## Inline-link extraction (`downloadAssets` lines 159–173)

`regexp.MustCompile` on `(\[.*\]\()([^https?://].*\.(png|jpg|gif|svg))\)`
followed by `FindAllStringSubmatch(content, -1)`; every `match[2]` is
appended as an asset reference.  Note `[^https?://]` is a *character
class*: it requires the first path character to be none of
`h t p s ? : /`.  Go regexp semantics are leftmost-first: at the first
position where a backtracking search succeeds, the match such a search
would find first is taken; `.*` is greedy and does not match a newline;
successive matches resume after the end of the previous match.  The
backtracking search is embedded directly: star lengths are tried
longest-first via a reversed `List.range`. -/
def schemeClassChars : Str := ['h', 't', 'p', 's', '?', ':', '/']

def imageExts : List Str := ["png".data, "jpg".data, "gif".data, "svg".data]

/-- Try `\.(png|jpg|gif|svg)\)` at this exact position, alternatives in
written order. -/
def tryExtAt (tail : Str) : Option Str :=
  imageExts.findSome? (fun e =>
    if isPrefixSeq ('.' :: (e ++ [')'])) tail then some e else none)

/-- Try group 2 followed by `\)` at this exact position:
`[^https?://].*\.(png|jpg|gif|svg)\)`.  Returns the captured group 2
and the remainder after the final `)`. -/
def tryPathMatch : Str → Option (Str × Str)
  | [] => none
  | c :: r2 =>
    if c ∈ schemeClassChars then none
    else
      (List.range ((r2.takeWhile (fun x => !(x == '\n'))).length + 1)).reverse.findSome?
        (fun m =>
          match tryExtAt (r2.drop m) with
          | some e =>
              some (c :: (r2.take m ++ '.' :: e), r2.drop (m + e.length + 2))
          | none => none)

/-- Try the whole pattern at this exact position: `\[`, then greedy
`.*`, then `\]\(`, then group 2.  Returns group 2 and the remainder
after the match. -/
def tryLinkMatch : Str → Option (Str × Str)
  | [] => none
  | c :: r1 =>
    if c = '[' then
      (List.range ((r1.takeWhile (fun x => !(x == '\n'))).length + 1)).reverse.findSome?
        (fun k =>
          if isPrefixSeq (']' :: ['(']) (r1.drop k) then
            tryPathMatch (r1.drop (k + 2))
          else none)
    else none

/-- The scan of `FindAllStringSubmatch` (a successful match always
consumes at least one character, so `l.length` fuel suffices). -/
def extractInlineGo : Nat → Str → List Str
  | _, [] => []
  | 0, _ :: _ => []
  | fuel + 1, c :: r =>
    match tryLinkMatch (c :: r) with
    | some (g, rem) => g :: extractInlineGo fuel rem
    | none => extractInlineGo fuel r

/-- All `match[2]` captures, in order, over the suffix-stripped
rendered text — the inline extraction pass of `downloadAssets`. -/
def extractInline (l : Str) : List Str := extractInlineGo l.length l

/-! ## The asset retrieval loop (`downloadAssets` lines 175–221)

Per asset, in order: `http.Get`; on transport error log and `continue`;
`defer resp.Body.Close()`; on status ≠ 200 log and `continue`;
`os.MkdirAll` (error value discarded); `os.Create`, on error log and
`continue`; `defer file.Close()`; `io.Copy`, on error log and
`continue`.  No failure path returns an error: after the early exit for
an empty asset list and the (checked) creation of the destination root,
the function always returns `nil`.  The environment oracle records the
external outcomes of each asset; `createOk` is the outcome of
`os.Create` assuming its directory exists, so a failed `MkdirAll`
surfaces as a failed `os.Create` (the directory is missing), which is
the logged, skipped path the code actually takes. -/
structure AssetEnv where
  fetch : Option Nat
  mkdirOk : Bool
  createOk : Bool
  copyOk : Bool
deriving DecidableEq

inductive StepResult where
  | skippedFetch
  | skippedStatus
  | skippedCreate
  | truncatedFile
  | written
deriving DecidableEq

/-- Observable per-iteration effect on disk for one asset. -/
def runAsset (e : AssetEnv) : StepResult :=
  match e.fetch with
  | none => .skippedFetch
  | some c =>
    if c ≠ 200 then .skippedStatus
    else if !(e.mkdirOk && e.createOk) then .skippedCreate
    else if e.copyOk then .written
    else .truncatedFile

/-- Lines logged by an iteration (every failure path prints exactly one
diagnostic before `continue`). -/
def logLines : StepResult → Nat
  | .written => 0
  | _ => 1

def runAssets : List AssetEnv → List StepResult
  | [] => []
  | e :: rest => runAsset e :: runAssets rest

/-- The whole of `downloadAssets` after extraction: early exit on an
empty list, fatal only for the destination-root `MkdirAll`, then the
loop — which never aborts. -/
def downloadAssetsRun (rootMkdirOk : Bool) (es : List AssetEnv) :
    Except String (List StepResult) :=
  if es.isEmpty then .ok []
  else if !rootMkdirOk then .error "failed to create destination directory"
  else .ok (runAssets es)

/-! ## Resource events of the loop (for claim C10)

A `defer` registers a call to run when the *function* returns, last
registered first; both defers sit inside the loop body, so nothing is
closed between iterations. -/
inductive Ev where
  | get (i : Nat)
  | openFile (i : Nat)
  | copy (i : Nat)
  | closeBody (i : Nat)
  | closeFile (i : Nat)
deriving DecidableEq

def isCloseEv : Ev → Bool
  | .closeBody _ => true
  | .closeFile _ => true
  | _ => false

/-- One iteration: the events it performs, and the close calls it
registers with `defer` (in registration order). -/
def iterTrace (i : Nat) (e : AssetEnv) : List Ev × List Ev :=
  match e.fetch with
  | none => ([.get i], [])
  | some c =>
    if c ≠ 200 then ([.get i], [.closeBody i])
    else if !(e.mkdirOk && e.createOk) then ([.get i], [.closeBody i])
    else ([.get i, .openFile i, .copy i], [.closeBody i, .closeFile i])

def loopTrace : Nat → List AssetEnv → List Ev × List Ev
  | _, [] => ([], [])
  | i, e :: rest =>
    ((iterTrace i e).1 ++ (loopTrace (i + 1) rest).1,
     (iterTrace i e).2 ++ (loopTrace (i + 1) rest).2)

/-- The full event order of `downloadAssets`: the events of the loop,
then — only at function return — the deferred closes, in reverse
registration order. -/
def downloadTrace (es : List AssetEnv) : List Ev :=
  (loopTrace 0 es).1 ++ ((loopTrace 0 es).2).reverse

/-! # Helper lemmas -/

theorem isPrefixSeq_iff (p l : Str) : isPrefixSeq p l = true ↔ p <+: l := by
  induction p generalizing l with
  | nil => simp [isPrefixSeq]
  | cons a as ih =>
    cases l with
    | nil =>
      simp [isPrefixSeq]
    | cons b bs =>
      simp only [isPrefixSeq, Bool.and_eq_true, decide_eq_true_eq, ih]
      constructor
      · rintro ⟨rfl, t, rfl⟩
        exact ⟨t, rfl⟩
      · rintro ⟨t, ht⟩
        rw [List.cons_append] at ht
        injection ht with h1 h2
        exact ⟨h1, t, h2⟩

theorem containsSeq_cons (pat : Str) (c : Char) (rest : Str) :
    containsSeq pat (c :: rest)
      = (isPrefixSeq pat (c :: rest) || containsSeq pat rest) := rfl

theorem containsSeq_false_drop {pat : Str} (n : Nat) {l : Str}
    (h : containsSeq pat l = false) : containsSeq pat (l.drop n) = false := by
  induction l generalizing n with
  | nil => simpa using h
  | cons c rest ih =>
    cases n with
    | zero => simpa using h
    | succ n =>
      rw [containsSeq_cons, Bool.or_eq_false_iff] at h
      exact ih n h.2

theorem replaceAllGo_of_not_contains {old : Str} (new : Str) :
    ∀ (fuel : Nat) (l : Str), containsSeq old l = false →
      replaceAllGo old new fuel l = l := by
  intro fuel
  induction fuel with
  | zero =>
    intro l _
    cases l <;> simp [replaceAllGo]
  | succ fuel ih =>
    intro l h
    cases l with
    | nil => simp [replaceAllGo]
    | cons c rest =>
      rw [containsSeq_cons, Bool.or_eq_false_iff] at h
      rw [replaceAllGo, if_neg (by simp [h.1]), ih rest h.2]

theorem replaceAll_of_not_contains {old : Str} (new : Str) {l : Str}
    (h : containsSeq old l = false) : replaceAll old new l = l :=
  replaceAllGo_of_not_contains new l.length l h

/-- Tracking a prefix of the stripped text back to the input: if the
output of the stripping scan starts with `u ++ ")"` where `u` contains
neither `?` nor `)`, then the input started either with
`u ++ "?raw=true)"` (the `")"` came from a replacement) or with
`u ++ ")"` verbatim. -/
theorem isPrefixSeq_replaceAllGo_paren :
    ∀ (fuel : Nat) (u m : Str),
      (∀ c ∈ u, c ≠ '?' ∧ c ≠ ')') →
      isPrefixSeq (u ++ [')']) (replaceAllGo rawMarkerParen [')'] fuel m) = true →
      isPrefixSeq (u ++ rawMarkerParen) m = true
        ∨ isPrefixSeq (u ++ [')']) m = true := by
  intro fuel
  induction fuel with
  | zero =>
    intro u m _ h
    right
    cases m <;> simpa [replaceAllGo] using h
  | succ fuel ih =>
    intro u m hu h
    cases m with
    | nil =>
      cases u <;> simp [replaceAllGo, isPrefixSeq] at h
    | cons c m' =>
      rw [replaceAllGo] at h
      by_cases hp : isPrefixSeq rawMarkerParen (c :: m') = true
      · rw [if_pos hp] at h
        cases u with
        | nil => exact Or.inl hp
        | cons u0 u' =>
          rw [List.cons_append, List.cons_append] at h
          simp only [isPrefixSeq, Bool.and_eq_true, decide_eq_true_eq] at h
          exact absurd h.1 (hu u0 (by simp)).2
      · rw [if_neg hp] at h
        cases u with
        | nil =>
          simp only [List.nil_append, isPrefixSeq, Bool.and_eq_true,
            decide_eq_true_eq] at h
          right
          simp only [List.nil_append, isPrefixSeq, Bool.and_eq_true,
            decide_eq_true_eq]
          exact ⟨h.1, trivial⟩
        | cons u0 u' =>
          rw [List.cons_append] at h
          simp only [isPrefixSeq, Bool.and_eq_true, decide_eq_true_eq] at h
          have hu' : ∀ c ∈ u', c ≠ '?' ∧ c ≠ ')' :=
            fun c hc => hu c (by simp [hc])
          rcases ih u' m' hu' h.2 with h2 | h2
          · left
            simp [List.cons_append, isPrefixSeq, h.1, h2]
          · right
            simp [List.cons_append, isPrefixSeq, h.1, h2]

theorem rawMarkerParen_eq :
    rawMarkerParen = '?' :: ("raw=true".data ++ [')']) := by decide

theorem doubledMarker_eq :
    doubledMarker = '?' :: ("raw=true".data ++ rawMarkerParen) := by decide

/-- If the input contains no doubled marker, the stripped text contains
no occurrence of `?raw=true)` at all. -/
theorem not_contains_replaceAllGo :
    ∀ (fuel : Nat) (l : Str), l.length ≤ fuel →
      containsSeq doubledMarker l = false →
      containsSeq rawMarkerParen (replaceAllGo rawMarkerParen [')'] fuel l)
        = false := by
  intro fuel
  induction fuel with
  | zero =>
    intro l hl _
    have : l = [] := List.eq_nil_of_length_eq_zero (Nat.le_zero.mp hl)
    subst this
    simp [replaceAllGo, containsSeq, rawMarkerParen]
  | succ fuel ih =>
    intro l hl h
    cases l with
    | nil => simp [replaceAllGo, containsSeq, rawMarkerParen]
    | cons c rest =>
      rw [replaceAllGo]
      by_cases hp : isPrefixSeq rawMarkerParen (c :: rest) = true
      · rw [if_pos hp]
        have hlen : ((c :: rest).drop rawMarkerParen.length).length ≤ fuel := by
          rw [List.length_drop]
          simp only [List.length_cons] at hl ⊢
          have : rawMarkerParen.length = 10 := by decide
          omega
        have hsub : containsSeq doubledMarker
            ((c :: rest).drop rawMarkerParen.length) = false :=
          containsSeq_false_drop _ h
        have hR := ih _ hlen hsub
        rw [List.singleton_append, containsSeq_cons, Bool.or_eq_false_iff]
        refine ⟨?_, hR⟩
        rw [rawMarkerParen_eq]
        simp [isPrefixSeq]
      · rw [if_neg hp]
        rw [containsSeq_cons, Bool.or_eq_false_iff] at h
        have hrest : rest.length ≤ fuel := by
          simp only [List.length_cons] at hl
          omega
        have hR := ih rest hrest h.2
        rw [containsSeq_cons, Bool.or_eq_false_iff]
        refine ⟨?_, hR⟩
        cases hq : isPrefixSeq rawMarkerParen
            (c :: replaceAllGo rawMarkerParen [')'] fuel rest) with
        | false => rfl
        | true =>
          exfalso
          rw [rawMarkerParen_eq] at hq
          simp only [isPrefixSeq, Bool.and_eq_true, decide_eq_true_eq] at hq
          have hcond : ∀ ch ∈ "raw=true".data, ch ≠ '?' ∧ ch ≠ ')' := by decide
          rcases isPrefixSeq_replaceAllGo_paren fuel "raw=true".data rest
              hcond hq.2 with h2 | h2
          · have hd : isPrefixSeq doubledMarker (c :: rest) = true := by
              rw [doubledMarker_eq]
              simp only [isPrefixSeq, Bool.and_eq_true, decide_eq_true_eq]
              exact ⟨hq.1, h2⟩
            rw [h.1] at hd
            exact Bool.noConfusion hd
          · have hpp : isPrefixSeq rawMarkerParen (c :: rest) = true := by
              rw [rawMarkerParen_eq]
              simp only [isPrefixSeq, Bool.and_eq_true, decide_eq_true_eq]
              exact ⟨hq.1, h2⟩
            exact hp hpp

theorem aRemoverGo_of_no_anchor :
    ∀ (fuel : Nat) (l : Str), hasAnchor l = false → aRemoverGo fuel l = l := by
  intro fuel
  induction fuel with
  | zero =>
    intro l _
    cases l <;> simp [aRemoverGo]
  | succ fuel ih =>
    intro l h
    cases l with
    | nil => simp [aRemoverGo]
    | cons c r =>
      rw [hasAnchor, Bool.or_eq_false_iff] at h
      have hnone : anchorAt (c :: r) = none := by
        cases ha : anchorAt (c :: r) with
        | none => rfl
        | some rem => rw [ha] at h; exact absurd h.1 (by simp)
      rw [aRemoverGo, hnone, ih r h.2]

theorem tryExtAt_some {tail e : Str} (h : tryExtAt tail = some e) :
    e ∈ imageExts ∧ isPrefixSeq ('.' :: (e ++ [')'])) tail = true := by
  rcases List.exists_of_findSome?_eq_some h with ⟨a, ha, hf⟩
  by_cases hc : isPrefixSeq ('.' :: (a ++ [')'])) tail = true
  · rw [if_pos hc] at hf
    injection hf with hf
    subst hf
    exact ⟨ha, hc⟩
  · rw [if_neg hc] at hf
    exact Option.noConfusion hf

theorem tryPathMatch_some {l g rem : Str}
    (h : tryPathMatch l = some (g, rem)) :
    (∃ c tl, g = c :: tl ∧ c ∉ schemeClassChars)
    ∧ (∃ pre e, e ∈ imageExts ∧ g = pre ++ '.' :: e)
    ∧ rem.length < l.length := by
  cases l with
  | nil => exact Option.noConfusion h
  | cons c r2 =>
    rw [tryPathMatch] at h
    by_cases hc : c ∈ schemeClassChars
    · rw [if_pos hc] at h
      exact Option.noConfusion h
    · rw [if_neg hc] at h
      rcases List.exists_of_findSome?_eq_some h with ⟨m, _, hf⟩
      cases he : tryExtAt (r2.drop m) with
      | none => rw [he] at hf; exact Option.noConfusion hf
      | some e =>
        rw [he] at hf
        injection hf with hf
        injection hf with hg hrem
        refine ⟨⟨c, r2.take m ++ '.' :: e, hg.symm, hc⟩,
          ⟨c :: r2.take m, e, (tryExtAt_some he).1, by rw [← hg]; rfl⟩, ?_⟩
        rw [← hrem, List.length_drop]
        simp only [List.length_cons]
        omega

theorem tryLinkMatch_some {l g rem : Str}
    (h : tryLinkMatch l = some (g, rem)) :
    ((∃ c tl, g = c :: tl ∧ c ∉ schemeClassChars)
      ∧ ∃ pre e, e ∈ imageExts ∧ g = pre ++ '.' :: e)
    ∧ rem.length < l.length := by
  cases l with
  | nil => exact Option.noConfusion h
  | cons c r1 =>
    rw [tryLinkMatch] at h
    by_cases hc : c = '['
    · rw [if_pos hc] at h
      rcases List.exists_of_findSome?_eq_some h with ⟨k, _, hf⟩
      by_cases hbr : isPrefixSeq (']' :: ['(']) (r1.drop k) = true
      · rw [if_pos hbr] at hf
        rcases tryPathMatch_some hf with ⟨h1, h2, h3⟩
        refine ⟨⟨h1, h2⟩, ?_⟩
        calc rem.length < (r1.drop (k + 2)).length := h3
          _ ≤ r1.length := by rw [List.length_drop]; omega
          _ < (c :: r1).length := by simp
      · rw [if_neg hbr] at hf
        exact Option.noConfusion hf
    · rw [if_neg hc] at h
      exact Option.noConfusion h

theorem extractInlineGo_mem :
    ∀ (fuel : Nat) (t g : Str), g ∈ extractInlineGo fuel t →
      (∃ c tl, g = c :: tl ∧ c ∉ schemeClassChars)
      ∧ ∃ pre e, e ∈ imageExts ∧ g = pre ++ '.' :: e := by
  intro fuel
  induction fuel with
  | zero =>
    intro t g h
    cases t <;> simp [extractInlineGo] at h
  | succ fuel ih =>
    intro t g h
    cases t with
    | nil => simp [extractInlineGo] at h
    | cons c r =>
      rw [extractInlineGo] at h
      cases htm : tryLinkMatch (c :: r) with
      | none =>
        rw [htm] at h
        exact ih r g h
      | some p =>
        obtain ⟨g', rem⟩ := p
        rw [htm] at h
        rcases List.mem_cons.mp h with hg | hg
        · subst hg
          exact (tryLinkMatch_some htm).1
        · exact ih rem g hg

theorem iterTrace_fst_no_close (i : Nat) (e : AssetEnv) :
    ∀ ev ∈ (iterTrace i e).1, isCloseEv ev = false := by
  intro ev hev
  cases hf : e.fetch with
  | none =>
    simp only [iterTrace, hf, List.mem_singleton] at hev
    subst hev
    rfl
  | some c =>
    simp only [iterTrace, hf] at hev
    split at hev
    · simp only [List.mem_singleton] at hev
      subst hev
      rfl
    · split at hev
      · simp only [List.mem_singleton] at hev
        subst hev
        rfl
      · simp only [List.mem_cons, List.not_mem_nil, or_false] at hev
        rcases hev with rfl | rfl | rfl <;> rfl

theorem iterTrace_snd_all_close (i : Nat) (e : AssetEnv) :
    ∀ ev ∈ (iterTrace i e).2, isCloseEv ev = true := by
  intro ev hev
  cases hf : e.fetch with
  | none => simp only [iterTrace, hf, List.not_mem_nil] at hev
  | some c =>
    simp only [iterTrace, hf] at hev
    split at hev
    · simp only [List.mem_singleton] at hev
      subst hev
      rfl
    · split at hev
      · simp only [List.mem_singleton] at hev
        subst hev
        rfl
      · simp only [List.mem_cons, List.not_mem_nil, or_false] at hev
        rcases hev with rfl | rfl <;> rfl

/-! # The claims -/

/-- C3: the command surface is claimed to accept one mandatory and one
optional positional argument.  The code exits with usage for any
`len(os.Args) ≠ 2`, so the documented two-positional-argument
invocation (argv length 3) is rejected and the revision-reading branch
is dead: the code contradicts its own usage string
`"Usage: go run main.go <github-repo-link> <branch-name>"`.  This
theorem evaluates the embedded argument handling on the failing input
and on the surrounding cases. -/
theorem parseArgs_two_positionals_rejected :
    parseArgs ["main", "https://github.com/u/r", "dev"] = none
    ∧ parseArgs ["main", "https://github.com/u/r"]
        = some ("https://github.com/u/r", "master")
    ∧ parseArgs ["main"] = none
    ∧ parseArgs ["main", "a", "b", "c"] = none := by
  refine ⟨?_, ?_, ?_, ?_⟩ <;> rfl

/-- C4 counterexample: the claim says every URL whose host is not
`github.com` aborts before any HTTP request, but validation is a string
*prefix* test, so the distinct host `github.community` passes. -/
theorem validateHost_nonmatching_host_passes :
    validateHost "github.community".data = true
    ∧ "github.community".data ≠ "github.com".data := by
  refine ⟨by rfl, by decide⟩

/-- C4 (amended): the run proceeds past host validation exactly when
the host *starts with* `github.com`; the exact host `github.com`
passes, and any host lacking that prefix is rejected before any network
activity. -/
theorem validateHost_prefix_characterization :
    (∀ h : Str, validateHost h = true ↔ "github.com".data <+: h)
    ∧ validateHost "github.com".data = true := by
  constructor
  · intro h
    exact isPrefixSeq_iff _ h
  · rfl

/-- C7 counterexample: the claim says any 2xx response is accepted, but
the code tests `resp.StatusCode != http.StatusOK`, so the 2xx status
201 is a hard failure. -/
theorem fetchGate_rejects_201 :
    fetchGate (.response 201) = false ∧ 200 ≤ 201 ∧ 201 < 300 := by
  refine ⟨by rfl, by decide, by decide⟩

/-- C7 (amended): the document fetch is a hard failure exactly when the
GET suffers a transport error or returns a status other than 200; only
status 200 is accepted. -/
theorem fetchGate_only_200 :
    (∀ c : Nat, fetchGate (.response c) = true ↔ c = 200)
    ∧ fetchGate .transportError = false := by
  constructor
  · intro c
    simp [fetchGate]
  · rfl

/-- C9: an attribute value is classified local exactly when it does not
begin with the HTTP scheme token `http`, local values are collected
verbatim, and on the example list of the spec exactly the two
non-`http` values are kept. -/
theorem classifyLocals_spec :
    classifyLocals
        ["https://x/y.png".data, "img/a.png".data,
         "http://z/b.svg".data, "./c.gif".data]
      = ["img/a.png".data, "./c.gif".data]
    ∧ (∀ v : Str, isLocal v = true ↔ ¬ ("http".data <+: v)) := by
  constructor
  · rfl
  · intro v
    simp only [isLocal, Bool.not_eq_true', ← isPrefixSeq_iff]
    exact ⟨fun h => by simp [h], fun h => by simpa using h⟩

/-- C8: heading-anchor removal.  The canonicalized form of the line
`## <a name="x"></a>Title` is `## Title`; a text in which the anchor
regex matches nowhere is left unchanged by this step; and the match
never spans a newline (the anchor broken across two lines is kept). -/
theorem readme_anchor_removal :
    canonicalize "## <a name=\"x\"></a>Title".data = "## Title".data
    ∧ (∀ l : Str, hasAnchor l = false → aRemover l = l)
    ∧ aRemover "## <a x\n></a>Title".data = "## <a x\n></a>Title".data := by
  refine ⟨by decide, fun l h => aRemoverGo_of_no_anchor l.length l h, by decide⟩

theorem readme_anchor_removal_witness :
    hasAnchor "## plain heading\nbody text".data = false
    ∧ aRemover "## plain heading\nbody text".data
        = "## plain heading\nbody text".data :=
  ⟨by decide, readme_anchor_removal.2.1 _ (by decide)⟩

/-- C1 counterexample: the claim says the structural stripping of the
raw-content marker from source-like attribute values is reflected in
the persisted README.md.  It is not: the file is produced from the
pre-parse raw bytes, on which only `"?raw=true)" → ")"` is applied, so
an `img` whose `src` value ends in `?raw=true"` (no closing
parenthesis) keeps the marker in the written file even though the
in-memory parsed document has it stripped. -/
theorem persisted_attr_marker_counterexample :
    (stripElem ⟨"img".data, some "a.png?raw=true".data, none⟩).src
        = some "a.png".data
    ∧ canonicalize "<img src=\"a.png?raw=true\"/>".data
        = "<img src=\"a.png?raw=true\"/>".data
    ∧ containsSeq rawMarker
        (canonicalize "<img src=\"a.png?raw=true\"/>".data) = true := by
  refine ⟨by decide, by decide, by decide⟩

/-- C1 (amended): the persisted document text is the raw fetched bytes
with only the textual canonicalization applied — occurrences of the
marker immediately followed by `)` are stripped (covering inline
markdown links) and heading anchors are collapsed; the structural
attribute stripping affects only the in-memory parsed document, so an
attribute-value marker not followed by `)` survives in the file. -/
theorem persisted_text_amended :
    canonicalize "![x](a.png?raw=true)".data = "![x](a.png)".data
    ∧ canonicalize "<img src=\"a.png?raw=true\"/>".data
        = "<img src=\"a.png?raw=true\"/>".data
    ∧ (stripElem ⟨"img".data, some "a.png?raw=true".data, none⟩).src
        = some "a.png".data
    ∧ (stripElem ⟨"link".data, none, some "b.css?raw=true".data⟩).href
        = some "b.css".data := by
  refine ⟨by decide, by decide, by decide, by decide⟩

/-- C2 counterexample: the claim says every inline link `[label](path)`
whose path lacks an HTTP scheme token and ends in an image extension is
extracted, regardless of the first character of the path.  But
`[^https?://]` is a character class, so `pics/a.png` — which does not
start with `http` and ends in `.png` — is not extracted: its first
character `p` is excluded by the class. -/
theorem inline_extraction_counterexample :
    extractInline "[label](pics/a.png)".data = []
    ∧ isPrefixSeq "http".data "pics/a.png".data = false
    ∧ "pics/a.png".data = "pics/a".data ++ '.' :: "png".data := by
  refine ⟨by decide, by decide, by decide⟩

/-- C2 (amended): an inline path is appended only if its *first
character* is none of `h t p s ? : /` (the character class
`[^https?://]`, not a scheme-token test) and it ends in `.png`, `.jpg`,
`.gif` or `.svg`; a path such as `img/a.png` is extracted while
`pics/a.png`, whose first character is in the class, is not. -/
theorem inline_extraction_amended :
    (∀ t g : Str, g ∈ extractInline t →
      (∃ c tl, g = c :: tl ∧ c ∉ schemeClassChars)
      ∧ ∃ pre e, e ∈ imageExts ∧ g = pre ++ '.' :: e)
    ∧ extractInline "[x](img/a.png)".data = ["img/a.png".data]
    ∧ extractInline "[label](pics/a.png)".data = [] := by
  refine ⟨fun t g h => extractInlineGo_mem t.length t g h, by decide, by decide⟩

theorem inline_extraction_amended_witness :
    ("img/a.png".data ∈ extractInline "[x](img/a.png)".data)
    ∧ ((∃ c tl, "img/a.png".data = c :: tl ∧ c ∉ schemeClassChars)
      ∧ ∃ pre e, e ∈ imageExts ∧ "img/a.png".data = pre ++ '.' :: e) :=
  ⟨by decide, inline_extraction_amended.1 "[x](img/a.png)".data
    "img/a.png".data (by decide)⟩

/-- C6 counterexample: the raw-content-suffix stripping is not
idempotent.  On `"?raw=true?raw=true)"` one application yields
`"?raw=true)"` (the substituted `")"` completes a fresh marker), and a
second application strips again. -/
theorem rawStrip_not_idempotent :
    textStrip "?raw=true?raw=true)".data = "?raw=true)".data
    ∧ textStrip (textStrip "?raw=true?raw=true)".data)
        ≠ textStrip "?raw=true?raw=true)".data := by
  refine ⟨by decide, by decide⟩

/-- C6 (amended): the stripping is idempotent for every text that does
not contain the doubled marker `"?raw=true?raw=true)"` — in particular
for any text with zero or more isolated occurrences of the marker. -/
theorem rawStrip_idempotent_amended (l : Str)
    (h : containsSeq doubledMarker l = false) :
    textStrip (textStrip l) = textStrip l := by
  have h1 : containsSeq rawMarkerParen (textStrip l) = false :=
    not_contains_replaceAllGo l.length l le_rfl h
  exact replaceAll_of_not_contains _ h1

theorem rawStrip_idempotent_amended_witness :
    containsSeq doubledMarker "a?raw=true) b?raw=true)c".data = false
    ∧ textStrip (textStrip "a?raw=true) b?raw=true)c".data)
        = textStrip "a?raw=true) b?raw=true)c".data :=
  ⟨by decide, rawStrip_idempotent_amended _ (by decide)⟩

/-- C5: per-asset failure isolation.  Each iteration depends only on
its own environment (splitting the list around any element splits the
results the same way), the loop never aborts (`downloadAssets` returns
`nil`, so `main` does not panic and exits 0), an asset whose fetch,
directory creation, file creation and copy all succeed is written,
every non-written outcome logs exactly one line, and on the three-asset
example of the spec with the second download returning 404 the first
and third are still written. -/
theorem asset_failure_isolation :
    (∀ (pre : List AssetEnv) (e : AssetEnv) (post : List AssetEnv),
      runAssets (pre ++ e :: post)
        = runAssets pre ++ runAsset e :: runAssets post)
    ∧ (∀ es : List AssetEnv, downloadAssetsRun true es = .ok (runAssets es))
    ∧ (∀ e : AssetEnv, e.fetch = some 200 → e.mkdirOk = true →
        e.createOk = true → e.copyOk = true → runAsset e = .written)
    ∧ (∀ e : AssetEnv, runAsset e ≠ .written → logLines (runAsset e) = 1)
    ∧ runAssets [⟨some 200, true, true, true⟩, ⟨some 404, true, true, true⟩,
        ⟨some 200, true, true, true⟩]
      = [.written, .skippedStatus, .written] := by
  refine ⟨?_, ?_, ?_, ?_, by decide⟩
  · intro pre e post
    induction pre with
    | nil => rfl
    | cons p pre ih =>
      show runAsset p :: runAssets (pre ++ e :: post) = _
      rw [ih]
      rfl
  · intro es
    cases es with
    | nil => rfl
    | cons e rest => rfl
  · intro e h1 h2 h3 h4
    cases e
    simp only at h1 h2 h3 h4
    subst h1; subst h2; subst h3; subst h4
    rfl
  · intro e h
    cases hr : runAsset e <;> first | rfl | exact absurd hr h

theorem asset_failure_isolation_witness :
    ((⟨some 200, true, true, true⟩ : AssetEnv).fetch = some 200)
    ∧ runAsset ⟨some 200, true, true, true⟩ = .written :=
  ⟨rfl, asset_failure_isolation.2.2.1 ⟨some 200, true, true, true⟩
    rfl rfl rfl rfl⟩

/-- C10 counterexample: the claim says the response body and file
handle of each iteration are closed at the end of that iteration,
before the next asset is processed.  With two successfully downloaded
assets, the trace shows the closes of asset 0 happen only after asset 1
has been fully processed — the in-loop defers run at function exit. -/
theorem deferred_close_counterexample :
    downloadTrace [⟨some 200, true, true, true⟩, ⟨some 200, true, true, true⟩]
      = [.get 0, .openFile 0, .copy 0, .get 1, .openFile 1, .copy 1,
         .closeFile 1, .closeBody 1, .closeFile 0, .closeBody 0]
    ∧ (downloadTrace [⟨some 200, true, true, true⟩,
        ⟨some 200, true, true, true⟩]).take 4
      = [.get 0, .openFile 0, .copy 0, .get 1]
    ∧ Ev.closeBody 0 ∈ (downloadTrace [⟨some 200, true, true, true⟩,
        ⟨some 200, true, true, true⟩]).drop 4 := by
  refine ⟨by decide, by decide, by decide⟩

/-- C10 (amended): the response bodies and file handles opened by the
loop are released only when `downloadAssets` returns: no iteration
performs a close (the loop part of the trace contains no close event),
and every deferred registration is a close, executed after the entire
loop in reverse registration order. -/
theorem deferred_close_amended :
    ∀ (es : List AssetEnv) (i : Nat),
      ((∀ ev ∈ (loopTrace i es).1, isCloseEv ev = false)
        ∧ (∀ ev ∈ (loopTrace i es).2, isCloseEv ev = true))
      ∧ downloadTrace es = (loopTrace 0 es).1 ++ ((loopTrace 0 es).2).reverse := by
  intro es
  induction es with
  | nil =>
    intro i
    exact ⟨⟨by intro ev hev; simp [loopTrace] at hev,
      by intro ev hev; simp [loopTrace] at hev⟩, rfl⟩
  | cons e rest ih =>
    intro i
    refine ⟨⟨?_, ?_⟩, rfl⟩
    · intro ev hev
      rw [loopTrace] at hev
      rcases List.mem_append.mp hev with h | h
      · exact iterTrace_fst_no_close i e ev h
      · exact ((ih (i + 1)).1).1 ev h
    · intro ev hev
      rw [loopTrace] at hev
      rcases List.mem_append.mp hev with h | h
      · exact iterTrace_snd_all_close i e ev h
      · exact ((ih (i + 1)).1).2 ev h

theorem deferred_close_amended_witness :
    (Ev.closeBody 0 ∈ (loopTrace 0 [⟨some 200, true, true, true⟩]).2)
    ∧ isCloseEv (Ev.closeBody 0) = true :=
  ⟨by decide, ((deferred_close_amended [⟨some 200, true, true, true⟩] 0).1).2
    (Ev.closeBody 0) (by decide)⟩

end ReadTheirs
